import Mathlib

/-!
Shallow embedding of `migrate_indices.py`: an orchestrator that submits one
asynchronous remote-reindex job per configured source index to an OpenSearch
target cluster and polls every 10 seconds until every job has reached a
terminal state.

The external OpenSearch client is modelled as an oracle (`Client`):
  * `reindex` models `es_target.reindex(body=..., wait_for_completion=False,
    params={"requests_per_second": "-1"})`; `Except.error` models a raised
    exception, `Except.ok r` a response dict whose `task` field is `r.task`.
  * `tasks_get` models `es_target.tasks.get(task_id=...)`; it takes the poll
    cycle number (time advances by one `time.sleep(10)` per cycle), and a
    returned `TaskStatus` models the response dict, where `none` in a field
    means the key is absent from the dict.

The Python dict `task_ids` is modelled as an association list with
replace-on-insert (`dictInsert`), preserving insertion order like a Python
dict. Log output is modelled as a trace of `Event`s. The unbounded `while`
loop is modelled with fuel; `RunOutcome.outOfFuel` marks the run that would
still be polling after `fuel` cycles.
-/

namespace MigrateIndices

/-- The `es_source_remote` config section: `{host, username, password}`. -/
structure RemoteSource where
  host : String
  username : String
  password : String
deriving DecidableEq, Repr

/-- The `body` dict built by `start_reindex_task`: remote source credentials,
source index and destination index. -/
structure ReindexBody where
  remote : RemoteSource
  source_index : String
  dest_index : String
deriving DecidableEq, Repr

/-- The full argument set of the `es_target.reindex` call: the body plus
`wait_for_completion` and the `requests_per_second` request parameter. -/
structure ReindexRequest where
  body : ReindexBody
  wait_for_completion : Bool
  requests_per_second : String
deriving DecidableEq, Repr

/-- A successful `reindex` response; `task` models `response['task']`. -/
structure ReindexResponse where
  task : String
deriving DecidableEq, Repr

/-- A successful `tasks.get` response dict. `completed = none` models a dict
with no `'completed'` key (so `status['completed']` would raise `KeyError`);
`error = none` models a dict with no `'error'` key. -/
structure TaskStatus where
  completed : Option Bool
  error : Option String
deriving DecidableEq, Repr

/-- The configuration loaded from YAML: the keys the orchestrator reads. -/
structure Config where
  source_indices : List String
  target_index : String
  es_source_remote : RemoteSource
deriving DecidableEq, Repr

/-- The OpenSearch client oracle: outcomes of the two remote calls the
orchestrator issues. `tasks_get` additionally depends on the poll cycle
number, since the remote task state evolves between cycles. -/
structure Client where
  reindex : ReindexRequest → Except String ReindexResponse
  tasks_get : Nat → String → Except String TaskStatus

/-- The run environment: outcome of `load_config` and of
`initialize_opensearch_client` on the loaded config. `Except.error` models a
raised exception in either step. -/
structure Env where
  load_config : Except String Config
  initialize_opensearch_client : Config → Except String Client

/-- One observable log/call event of the run. -/
inductive Event where
  | submitCall (req : ReindexRequest)
  | submitOk (index : String) (task_id : String)
  | submitFail (index : String)
  | statusQuery (index : String) (task_id : String)
  | jobFailed (index : String) (err : String)
  | jobCompleted (index : String)
  | jobInProgress (index : String)
  | summary
deriving DecidableEq, Repr

/-- Outcome of a run: normal return after `cycles` poll cycles, an exception
reaching the outer `except` handler, or fuel exhausted while jobs remain
(modelling the potentially unbounded `while` loop). -/
inductive RunOutcome where
  | finished (cycles : Nat)
  | fatalError (msg : String)
  | outOfFuel
deriving DecidableEq, Repr

/-- A whole run: its outcome and its event trace. -/
structure RunResult where
  outcome : RunOutcome
  trace : List Event
deriving DecidableEq, Repr

/-- The request `start_reindex_task` builds: the `body` dict with the remote
credentials, source index and dest index, with `wait_for_completion=False`
and `params={"requests_per_second": "-1"}`. -/
def reindexRequestFor (source_index : String) (target_index : String)
    (source_remote : RemoteSource) : ReindexRequest :=
  { body := { remote := { host := source_remote.host
                        , username := source_remote.username
                        , password := source_remote.password }
            , source_index := source_index
            , dest_index := target_index }
  , wait_for_completion := false
  , requests_per_second := "-1" }

/-- `start_reindex_task`: issue the reindex call; on success return the
response's `task` field, on exception return `None`. -/
def start_reindex_task (client : Client) (source_index : String)
    (target_index : String) (source_remote : RemoteSource) : Option String :=
  match client.reindex (reindexRequestFor source_index target_index source_remote) with
  | Except.ok response => some response.task
  | Except.error _ => none

/-- `check_task_status`: query the task; on exception return the dict
`{"completed": True, "error": str(e)}`. -/
def check_task_status (client : Client) (cycle : Nat) (task_id : String) : TaskStatus :=
  match client.tasks_get cycle task_id with
  | Except.ok response => response
  | Except.error e => { completed := some true, error := some e }

/-- Python dict insertion `d[k] = v` on an association list: replace in place
if the key exists, else append at the end (insertion order preserved). -/
def dictInsert (k v : String) : List (String × String) → List (String × String)
  | [] => [(k, v)]
  | (k', v') :: rest =>
    if k' = k then (k, v) :: rest else (k', v') :: dictInsert k v rest

/-- The submit loop of `migrate_indices`: for each configured index call
`start_reindex_task`; `if task_id:` (Python truthiness, so `None` and the
empty string are both excluded) record it in the `task_ids` dict. Returns
the final dict and the emitted events. -/
def submit_phase (client : Client) (config : Config) :
    List String → List (String × String) → List (String × String) × List Event
  | [], acc => (acc, [])
  | index :: rest, acc =>
    match start_reindex_task client index config.target_index config.es_source_remote with
    | none =>
      let r := submit_phase client config rest acc
      (r.1, Event.submitCall (reindexRequestFor index config.target_index config.es_source_remote)
              :: Event.submitFail index :: r.2)
    | some task_id =>
      let r := submit_phase client config rest
                 (if task_id = "" then acc else dictInsert index task_id acc)
      (r.1, Event.submitCall (reindexRequestFor index config.target_index config.es_source_remote)
              :: Event.submitOk index task_id :: r.2)

/-- One pass of `for index, task_id in list(task_ids.items())`: query each
task's status; `status['completed']` raises `KeyError` (modelled as
`Except.error`) when the key is absent; a completed task is popped (with a
success or failure log depending on presence of `'error'`), an in-progress
task is kept. Returns the events and either the kept pairs or the index at
which the pass raised. -/
def poll_tasks (client : Client) (cycle : Nat) :
    List (String × String) → List Event × Except String (List (String × String))
  | [] => ([], Except.ok [])
  | (index, task_id) :: rest =>
    let status := check_task_status client cycle task_id
    match status.completed with
    | none => ([Event.statusQuery index task_id], Except.error index)
    | some true =>
      let ev := match status.error with
        | some e => Event.jobFailed index e
        | none => Event.jobCompleted index
      let r := poll_tasks client cycle rest
      (Event.statusQuery index task_id :: ev :: r.1, r.2)
    | some false =>
      let r := poll_tasks client cycle rest
      (Event.statusQuery index task_id :: Event.jobInProgress index :: r.1,
       match r.2 with
       | Except.ok kept => Except.ok ((index, task_id) :: kept)
       | Except.error e => Except.error e)

/-- The `while task_ids:` loop: each iteration sleeps 10 seconds (advancing
the cycle counter) and polls every tracked task. Terminates normally when the
dict is empty, fatally when a pass raises, and `outOfFuel` models a loop that
is still running after `fuel` cycles. -/
def poll_loop (client : Client) : Nat → Nat → List (String × String) → List Event × RunOutcome
  | _, cyclesDone, [] => ([], RunOutcome.finished cyclesDone)
  | 0, _, _ :: _ => ([], RunOutcome.outOfFuel)
  | fuel + 1, cyclesDone, (p :: rest : List (String × String)) =>
    let r := poll_tasks client (cyclesDone + 1) (p :: rest)
    match r.2 with
    | Except.error e => (r.1, RunOutcome.fatalError e)
    | Except.ok kept =>
      let r2 := poll_loop client fuel (cyclesDone + 1) kept
      (r.1 ++ r2.1, r2.2)

/-- `migrate_indices`: load the config, build the client, submit all jobs,
poll until the active dict is empty, then log the elapsed-time summary. Any
exception from config loading, client construction or the poll loop reaches
the outer handler and yields `fatalError`. -/
def migrate_indices (env : Env) (fuel : Nat) : RunResult :=
  match env.load_config with
  | Except.error e => { outcome := RunOutcome.fatalError e, trace := [] }
  | Except.ok config =>
    match env.initialize_opensearch_client config with
    | Except.error e => { outcome := RunOutcome.fatalError e, trace := [] }
    | Except.ok client =>
      let s := submit_phase client config config.source_indices []
      let p := poll_loop client fuel 0 s.1
      { outcome := p.2
      , trace := s.2 ++ p.1 ++
          (match p.2 with
           | RunOutcome.finished _ => [Event.summary]
           | _ => []) }

/-- The index a poll-phase event is about, `none` for submit-phase events and
the summary line. -/
def pollEvIdx : Event → Option String
  | Event.statusQuery i _ => some i
  | Event.jobFailed i _ => some i
  | Event.jobCompleted i => some i
  | Event.jobInProgress i => some i
  | _ => none

/-- The index of a terminal (completed/failed) log event. -/
def termIdx : Event → Option String
  | Event.jobFailed i _ => some i
  | Event.jobCompleted i => some i
  | _ => none

/-- Indices of all terminal log events in a trace, in order. -/
def termIndices (trace : List Event) : List String :=
  trace.filterMap termIdx

/-- The client responds to every status query with a dict that has a
`'completed'` key, as the OpenSearch task API contract promises. -/
def StatusWellFormed (client : Client) : Prop :=
  ∀ cycle task_id st, client.tasks_get cycle task_id = Except.ok st →
    st.completed ≠ none

/-- A status oracle driven by per-task completion times: task `t` reports
completed at poll cycle `c` (wall-clock time `10 * c`) iff `T t ≤ 10 * c`;
no errors, every response well-formed. -/
def scheduleStatus (T : String → Nat) (cycle : Nat) (task_id : String) :
    Except String TaskStatus :=
  Except.ok { completed := some (decide (T task_id ≤ 10 * cycle)), error := none }

/-- The first poll cycle at which a task with completion time `t` is observed
completed: cycle `max 1 ⌈t / 10⌉` (never before cycle 1, since the loop
sleeps before its first poll). -/
def firstCycle (t : Nat) : Nat := max 1 ((t + 9) / 10)

/-- The last cycle at which some task of the active dict is observed
completed, under completion times `T` (0 for the empty dict). -/
def maxCycle (T : String → Nat) (l : List (String × String)) : Nat :=
  l.foldr (fun p acc => max (firstCycle (T p.2)) acc) 0

/-! ### Helper lemmas: the task dict -/

theorem mem_keys_dictInsert (k v x : String) (l : List (String × String)) :
    x ∈ (dictInsert k v l).map Prod.fst ↔ x = k ∨ x ∈ l.map Prod.fst := by
  induction l with
  | nil => simp [dictInsert]
  | cons p rest ih =>
    obtain ⟨k1, v1⟩ := p
    by_cases h : k1 = k
    · subst h
      simp [dictInsert]
    · simp only [dictInsert, if_neg h, List.map_cons, List.mem_cons, ih]
      tauto

theorem keys_nodup_dictInsert (k v : String) (l : List (String × String))
    (h : (l.map Prod.fst).Nodup) : ((dictInsert k v l).map Prod.fst).Nodup := by
  induction l with
  | nil => simp [dictInsert]
  | cons p rest ih =>
    obtain ⟨k1, v1⟩ := p
    simp only [List.map_cons, List.nodup_cons] at h
    by_cases hk : k1 = k
    · subst hk
      simpa [dictInsert] using h
    · simp only [dictInsert, if_neg hk, List.map_cons, List.nodup_cons]
      refine ⟨fun hc => ?_, ih h.2⟩
      rcases (mem_keys_dictInsert k v k1 rest).1 hc with h1 | h1
      · exact hk h1
      · exact h.1 h1

theorem length_dictInsert_not_mem (k v : String) (l : List (String × String))
    (h : k ∉ l.map Prod.fst) : (dictInsert k v l).length = l.length + 1 := by
  induction l with
  | nil => simp [dictInsert]
  | cons p rest ih =>
    obtain ⟨k1, v1⟩ := p
    simp only [List.map_cons, List.mem_cons] at h
    push_neg at h
    simp only [dictInsert, if_neg (fun hc : k1 = k => h.1 hc.symm), List.length_cons]
    rw [ih h.2]

/-! ### Helper lemmas: the submit phase -/

theorem submit_keys_mono (client : Client) (config : Config)
    (idxs : List String) (acc : List (String × String)) (x : String)
    (h : x ∈ acc.map Prod.fst) :
    x ∈ (submit_phase client config idxs acc).1.map Prod.fst := by
  induction idxs generalizing acc with
  | nil => simpa [submit_phase] using h
  | cons i rest ih =>
    cases hs : start_reindex_task client i config.target_index config.es_source_remote with
    | none => simpa [submit_phase, hs] using ih acc h
    | some tid =>
      by_cases ht : tid = ""
      · simpa [submit_phase, hs, ht] using ih acc h
      · simp only [submit_phase, hs, if_neg ht]
        exact ih _ ((mem_keys_dictInsert i tid x acc).2 (Or.inr h))

theorem submit_keys_sub (client : Client) (config : Config)
    (idxs : List String) (acc : List (String × String)) (x : String)
    (h : x ∈ (submit_phase client config idxs acc).1.map Prod.fst) :
    x ∈ acc.map Prod.fst ∨ x ∈ idxs := by
  induction idxs generalizing acc with
  | nil => exact Or.inl (by simpa [submit_phase] using h)
  | cons i rest ih =>
    cases hs : start_reindex_task client i config.target_index config.es_source_remote with
    | none =>
      simp only [submit_phase, hs] at h
      rcases ih acc h with h1 | h1
      · exact Or.inl h1
      · exact Or.inr (List.mem_cons_of_mem _ h1)
    | some tid =>
      by_cases ht : tid = ""
      · simp only [submit_phase, hs, if_pos ht] at h
        rcases ih acc h with h1 | h1
        · exact Or.inl h1
        · exact Or.inr (List.mem_cons_of_mem _ h1)
      · simp only [submit_phase, hs, if_neg ht] at h
        rcases ih _ h with h1 | h1
        · rcases (mem_keys_dictInsert i tid x acc).1 h1 with h2 | h2
          · exact Or.inr (h2 ▸ List.mem_cons_self _ _)
          · exact Or.inl h2
        · exact Or.inr (List.mem_cons_of_mem _ h1)

theorem submit_keys_nodup (client : Client) (config : Config)
    (idxs : List String) (acc : List (String × String))
    (h : (acc.map Prod.fst).Nodup) :
    ((submit_phase client config idxs acc).1.map Prod.fst).Nodup := by
  induction idxs generalizing acc with
  | nil => simpa [submit_phase] using h
  | cons i rest ih =>
    cases hs : start_reindex_task client i config.target_index config.es_source_remote with
    | none => simpa [submit_phase, hs] using ih acc h
    | some tid =>
      by_cases ht : tid = ""
      · simpa [submit_phase, hs, ht] using ih acc h
      · simp only [submit_phase, hs, if_neg ht]
        exact ih _ (keys_nodup_dictInsert i tid acc h)

theorem submit_keys_not_mem (client : Client) (config : Config)
    (idxs : List String) (acc : List (String × String)) (i : String)
    (hfail : ∀ tid, start_reindex_task client i config.target_index config.es_source_remote
        = some tid → tid = "")
    (hacc : i ∉ acc.map Prod.fst) :
    i ∉ (submit_phase client config idxs acc).1.map Prod.fst := by
  induction idxs generalizing acc with
  | nil => simpa [submit_phase] using hacc
  | cons j rest ih =>
    cases hs : start_reindex_task client j config.target_index config.es_source_remote with
    | none => simpa [submit_phase, hs] using ih acc hacc
    | some tid =>
      by_cases ht : tid = ""
      · simpa [submit_phase, hs, ht] using ih acc hacc
      · simp only [submit_phase, hs, if_neg ht]
        refine ih _ (fun hc => ?_)
        rcases (mem_keys_dictInsert j tid i acc).1 hc with h1 | h1
        · exact ht (hfail tid (h1 ▸ hs))
        · exact hacc h1

theorem submit_mem_of_success (client : Client) (config : Config)
    (idxs : List String) (acc : List (String × String)) (i tid : String)
    (hmem : i ∈ idxs)
    (hs : start_reindex_task client i config.target_index config.es_source_remote = some tid)
    (ht : tid ≠ "") :
    i ∈ (submit_phase client config idxs acc).1.map Prod.fst := by
  induction idxs generalizing acc with
  | nil => cases hmem
  | cons j rest ih =>
    rcases List.mem_cons.1 hmem with rfl | hmem2
    · simp only [submit_phase, hs, if_neg ht]
      exact submit_keys_mono client config rest _ i
        ((mem_keys_dictInsert i tid i acc).2 (Or.inl rfl))
    · cases hs2 : start_reindex_task client j config.target_index config.es_source_remote with
      | none => simpa [submit_phase, hs2] using ih acc hmem2
      | some tid2 =>
        by_cases ht2 : tid2 = ""
        · simpa [submit_phase, hs2, ht2] using ih acc hmem2
        · simp only [submit_phase, hs2, if_neg ht2]
          exact ih _ hmem2

theorem submit_submitFail_mem (client : Client) (config : Config)
    (idxs : List String) (acc : List (String × String)) (i : String)
    (hmem : i ∈ idxs)
    (hs : start_reindex_task client i config.target_index config.es_source_remote = none) :
    Event.submitFail i ∈ (submit_phase client config idxs acc).2 := by
  induction idxs generalizing acc with
  | nil => cases hmem
  | cons j rest ih =>
    rcases List.mem_cons.1 hmem with rfl | hmem2
    · simp [submit_phase, hs]
    · cases hs2 : start_reindex_task client j config.target_index config.es_source_remote with
      | none =>
        simp only [submit_phase, hs2, List.mem_cons]
        exact Or.inr (Or.inr (ih acc hmem2))
      | some tid2 =>
        simp only [submit_phase, hs2, List.mem_cons]
        exact Or.inr (Or.inr (ih _ hmem2))

theorem submit_submitCall_mem (client : Client) (config : Config)
    (idxs : List String) (acc : List (String × String)) (i : String)
    (hmem : i ∈ idxs) :
    Event.submitCall (reindexRequestFor i config.target_index config.es_source_remote)
      ∈ (submit_phase client config idxs acc).2 := by
  induction idxs generalizing acc with
  | nil => cases hmem
  | cons j rest ih =>
    rcases List.mem_cons.1 hmem with rfl | hmem2
    · cases hs : start_reindex_task client i config.target_index config.es_source_remote with
      | none => simp [submit_phase, hs]
      | some tid => simp [submit_phase, hs]
    · cases hs2 : start_reindex_task client j config.target_index config.es_source_remote with
      | none =>
        simp only [submit_phase, hs2, List.mem_cons]
        exact Or.inr (Or.inr (ih acc hmem2))
      | some tid2 =>
        simp only [submit_phase, hs2, List.mem_cons]
        exact Or.inr (Or.inr (ih _ hmem2))

theorem submit_events_pollEvIdx (client : Client) (config : Config)
    (idxs : List String) (acc : List (String × String)) (ev : Event)
    (hmem : ev ∈ (submit_phase client config idxs acc).2) :
    pollEvIdx ev = none := by
  induction idxs generalizing acc with
  | nil => simp [submit_phase] at hmem
  | cons j rest ih =>
    cases hs : start_reindex_task client j config.target_index config.es_source_remote with
    | none =>
      simp only [submit_phase, hs, List.mem_cons] at hmem
      rcases hmem with rfl | rfl | h
      · rfl
      · rfl
      · exact ih acc h
    | some tid =>
      simp only [submit_phase, hs, List.mem_cons] at hmem
      rcases hmem with rfl | rfl | h
      · rfl
      · rfl
      · exact ih _ h

theorem submit_call_events (client : Client) (config : Config)
    (idxs : List String) (acc : List (String × String)) (req : ReindexRequest)
    (hmem : Event.submitCall req ∈ (submit_phase client config idxs acc).2) :
    ∃ i ∈ idxs, req = reindexRequestFor i config.target_index config.es_source_remote := by
  induction idxs generalizing acc with
  | nil => simp [submit_phase] at hmem
  | cons j rest ih =>
    cases hs : start_reindex_task client j config.target_index config.es_source_remote with
    | none =>
      simp only [submit_phase, hs, List.mem_cons] at hmem
      rcases hmem with h | h | h
      · exact ⟨j, List.mem_cons_self _ _, by injection h⟩
      · cases h
      · obtain ⟨i, hi, hr⟩ := ih acc h
        exact ⟨i, List.mem_cons_of_mem _ hi, hr⟩
    | some tid =>
      simp only [submit_phase, hs, List.mem_cons] at hmem
      rcases hmem with h | h | h
      · exact ⟨j, List.mem_cons_self _ _, by injection h⟩
      · cases h
      · obtain ⟨i, hi, hr⟩ := ih _ h
        exact ⟨i, List.mem_cons_of_mem _ hi, hr⟩

theorem submit_length (client : Client) (config : Config)
    (idxs : List String) (acc : List (String × String))
    (hnd : idxs.Nodup)
    (hok : ∀ i ∈ idxs, ∃ tid, tid ≠ "" ∧
      start_reindex_task client i config.target_index config.es_source_remote = some tid)
    (hdisj : ∀ i ∈ idxs, i ∉ acc.map Prod.fst) :
    (submit_phase client config idxs acc).1.length = acc.length + idxs.length := by
  induction idxs generalizing acc with
  | nil => simp [submit_phase]
  | cons j rest ih =>
    obtain ⟨tid, ht, hs⟩ := hok j (List.mem_cons_self _ _)
    simp only [submit_phase, hs, if_neg ht]
    rw [ih _ (List.nodup_cons.1 hnd).2
        (fun i hi => hok i (List.mem_cons_of_mem _ hi))
        (fun i hi hc => ?_)]
    · rw [length_dictInsert_not_mem j tid acc (hdisj j (List.mem_cons_self _ _))]
      simp only [List.length_cons]
      omega
    · rcases (mem_keys_dictInsert j tid i acc).1 hc with h1 | h1
      · exact (List.nodup_cons.1 hnd).1 (h1 ▸ hi)
      · exact hdisj i (List.mem_cons_of_mem _ hi) h1

/-! ### Helper lemmas: one poll pass -/

theorem poll_tasks_sublist (client : Client) (cycle : Nat)
    (l kept : List (String × String))
    (h : (poll_tasks client cycle l).2 = Except.ok kept) : kept.Sublist l := by
  induction l generalizing kept with
  | nil =>
    simp only [poll_tasks] at h
    cases h
    exact List.Sublist.refl _
  | cons p rest ih =>
    obtain ⟨index, task_id⟩ := p
    simp only [poll_tasks] at h
    cases hc : (check_task_status client cycle task_id).completed with
    | none => rw [hc] at h; cases h
    | some c =>
      cases c with
      | true =>
        simp only [hc] at h
        exact (ih kept h).cons _
      | false =>
        simp only [hc] at h
        cases hk : (poll_tasks client cycle rest).2 with
        | ok kept2 =>
          rw [hk] at h
          cases h
          exact (ih kept2 hk).cons₂ _
        | error e => rw [hk] at h; cases h

theorem poll_tasks_evIdx (client : Client) (cycle : Nat)
    (l : List (String × String)) (ev : Event) (i : String)
    (hmem : ev ∈ (poll_tasks client cycle l).1)
    (hidx : pollEvIdx ev = some i) : i ∈ l.map Prod.fst := by
  induction l with
  | nil => simp [poll_tasks] at hmem
  | cons p rest ih =>
    obtain ⟨index, task_id⟩ := p
    simp only [poll_tasks] at hmem
    cases hc : (check_task_status client cycle task_id).completed with
    | none =>
      rw [hc] at hmem
      simp only [List.mem_singleton] at hmem
      subst hmem
      simp only [pollEvIdx] at hidx
      cases hidx
      simp
    | some c =>
      cases c with
      | true =>
        cases he : (check_task_status client cycle task_id).error with
        | none =>
          simp only [hc, he, List.mem_cons] at hmem
          rcases hmem with rfl | rfl | h
          · simp only [pollEvIdx] at hidx; cases hidx; simp
          · simp only [pollEvIdx] at hidx; cases hidx; simp
          · exact List.mem_cons_of_mem _ (ih h)
        | some err =>
          simp only [hc, he, List.mem_cons] at hmem
          rcases hmem with rfl | rfl | h
          · simp only [pollEvIdx] at hidx; cases hidx; simp
          · simp only [pollEvIdx] at hidx; cases hidx; simp
          · exact List.mem_cons_of_mem _ (ih h)
      | false =>
        simp only [hc, List.mem_cons] at hmem
        rcases hmem with rfl | rfl | h
        · simp only [pollEvIdx] at hidx; cases hidx; simp
        · simp only [pollEvIdx] at hidx; cases hidx; simp
        · exact List.mem_cons_of_mem _ (ih h)

theorem poll_tasks_no_raise (client : Client) (cycle : Nat)
    (l : List (String × String))
    (hwf : ∀ p ∈ l, (check_task_status client cycle p.2).completed ≠ none) :
    ∃ kept, (poll_tasks client cycle l).2 = Except.ok kept := by
  induction l with
  | nil => exact ⟨[], rfl⟩
  | cons p rest ih =>
    obtain ⟨index, task_id⟩ := p
    obtain ⟨kept, hk⟩ := ih (fun q hq => hwf q (List.mem_cons_of_mem _ hq))
    cases hc : (check_task_status client cycle task_id).completed with
    | none => exact absurd hc (hwf (index, task_id) (List.mem_cons_self _ _))
    | some c =>
      cases c with
      | true => exact ⟨kept, by simp only [poll_tasks, hc]; exact hk⟩
      | false => exact ⟨(index, task_id) :: kept, by simp only [poll_tasks, hc, hk]⟩

theorem poll_tasks_all_queried (client : Client) (cycle : Nat)
    (l : List (String × String))
    (hwf : ∀ p ∈ l, (check_task_status client cycle p.2).completed ≠ none) :
    ∀ p ∈ l, Event.statusQuery p.1 p.2 ∈ (poll_tasks client cycle l).1 := by
  induction l with
  | nil => intro p hp; cases hp
  | cons q rest ih =>
    obtain ⟨index, task_id⟩ := q
    intro p hp
    cases hc : (check_task_status client cycle task_id).completed with
    | none => exact absurd hc (hwf (index, task_id) (List.mem_cons_self _ _))
    | some c =>
      rcases List.mem_cons.1 hp with rfl | hp2
      · cases c with
        | true =>
          cases he : (check_task_status client cycle task_id).error with
          | none => simp [poll_tasks, hc, he]
          | some err => simp [poll_tasks, hc, he]
        | false => simp [poll_tasks, hc]
      · have hrest := ih (fun q hq => hwf q (List.mem_cons_of_mem _ hq)) p hp2
        cases c with
        | true =>
          cases he : (check_task_status client cycle task_id).error with
          | none =>
            simp only [poll_tasks, hc, he, List.mem_cons]
            exact Or.inr (Or.inr hrest)
          | some err =>
            simp only [poll_tasks, hc, he, List.mem_cons]
            exact Or.inr (Or.inr hrest)
        | false =>
          simp only [poll_tasks, hc, List.mem_cons]
          exact Or.inr (Or.inr hrest)

theorem poll_tasks_term_sublist (client : Client) (cycle : Nat)
    (l : List (String × String)) :
    (termIndices (poll_tasks client cycle l).1).Sublist (l.map Prod.fst) := by
  induction l with
  | nil => simp [poll_tasks, termIndices]
  | cons p rest ih =>
    obtain ⟨index, task_id⟩ := p
    cases hc : (check_task_status client cycle task_id).completed with
    | none => simp [poll_tasks, hc, termIndices, termIdx]
    | some c =>
      cases c with
      | true =>
        cases he : (check_task_status client cycle task_id).error with
        | none =>
          simp only [poll_tasks, hc, he, termIndices, List.filterMap_cons, termIdx,
            List.map_cons]
          exact ih.cons₂ _
        | some err =>
          simp only [poll_tasks, hc, he, termIndices, List.filterMap_cons, termIdx,
            List.map_cons]
          exact ih.cons₂ _
      | false =>
        simp only [poll_tasks, hc, termIndices, List.filterMap_cons, termIdx,
          List.map_cons]
        exact ih.cons _

theorem poll_tasks_term_not_kept (client : Client) (cycle : Nat)
    (l kept : List (String × String)) (i : String)
    (hnd : (l.map Prod.fst).Nodup)
    (hok : (poll_tasks client cycle l).2 = Except.ok kept)
    (hterm : i ∈ termIndices (poll_tasks client cycle l).1) :
    i ∉ kept.map Prod.fst := by
  induction l generalizing kept with
  | nil =>
    simp only [poll_tasks] at hok
    cases hok
    simp
  | cons p rest ih =>
    obtain ⟨index, task_id⟩ := p
    simp only [List.map_cons, List.nodup_cons] at hnd
    cases hc : (check_task_status client cycle task_id).completed with
    | none =>
      simp only [poll_tasks, hc] at hok
      cases hok
    | some c =>
      cases c with
      | true =>
        simp only [poll_tasks, hc] at hok hterm
        cases he : (check_task_status client cycle task_id).error with
        | none =>
          simp only [he, termIndices, List.filterMap_cons, termIdx] at hterm
          rcases List.mem_cons.1 hterm with rfl | h2
          · intro hc2
            exact hnd.1 (((poll_tasks_sublist client cycle rest kept hok).map
              Prod.fst).subset hc2)
          · exact ih kept hnd.2 hok h2
        | some err =>
          simp only [he, termIndices, List.filterMap_cons, termIdx] at hterm
          rcases List.mem_cons.1 hterm with rfl | h2
          · intro hc2
            exact hnd.1 (((poll_tasks_sublist client cycle rest kept hok).map
              Prod.fst).subset hc2)
          · exact ih kept hnd.2 hok h2
      | false =>
        simp only [poll_tasks, hc] at hok hterm
        cases hk : (poll_tasks client cycle rest).2 with
        | ok kept2 =>
          rw [hk] at hok
          cases hok
          simp only [termIndices, List.filterMap_cons, termIdx] at hterm
          have h3 := ih kept2 hnd.2 hk hterm
          simp only [List.map_cons, List.mem_cons]
          intro hc2
          rcases hc2 with rfl | hc2
          · exact hnd.1 ((poll_tasks_term_sublist client cycle rest).subset hterm)
          · exact h3 hc2
        | error e => rw [hk] at hok; cases hok

theorem check_task_status_of_error (client : Client) (cycle : Nat) (t e : String)
    (h : client.tasks_get cycle t = Except.error e) :
    check_task_status client cycle t = { completed := some true, error := some e } := by
  simp [check_task_status, h]

theorem check_task_status_wf (client : Client) (hwf : StatusWellFormed client)
    (cycle : Nat) (t : String) : (check_task_status client cycle t).completed ≠ none := by
  cases h : client.tasks_get cycle t with
  | ok st => simpa [check_task_status, h] using hwf cycle t st h
  | error e => simp [check_task_status, h]

theorem poll_tasks_rest_ok (client : Client) (cycle : Nat)
    (p : String × String) (rest : List (String × String))
    (kept : List (String × String))
    (hok : (poll_tasks client cycle (p :: rest)).2 = Except.ok kept) :
    ∃ kept2, (poll_tasks client cycle rest).2 = Except.ok kept2 := by
  obtain ⟨index, task_id⟩ := p
  cases hc : (check_task_status client cycle task_id).completed with
  | none => simp only [poll_tasks, hc] at hok; cases hok
  | some c =>
    cases c with
    | true =>
      simp only [poll_tasks, hc] at hok
      exact ⟨kept, hok⟩
    | false =>
      simp only [poll_tasks, hc] at hok
      cases hk : (poll_tasks client cycle rest).2 with
      | ok kept2 => exact ⟨kept2, rfl⟩
      | error e => rw [hk] at hok; cases hok

theorem poll_tasks_case_fail (client : Client) (cycle : Nat)
    (l kept : List (String × String)) (i t e : String)
    (hmem : (i, t) ∈ l)
    (hc : (check_task_status client cycle t).completed = some true)
    (he : (check_task_status client cycle t).error = some e)
    (hok : (poll_tasks client cycle l).2 = Except.ok kept) :
    Event.jobFailed i e ∈ (poll_tasks client cycle l).1 := by
  induction l generalizing kept with
  | nil => cases hmem
  | cons p rest ih =>
    rcases List.mem_cons.1 hmem with heq | hmem2
    · cases heq
      simp [poll_tasks, hc, he]
    · obtain ⟨index, task_id⟩ := p
      obtain ⟨kept2, hk2⟩ := poll_tasks_rest_ok client cycle _ rest kept hok
      have hrest := ih kept2 hmem2 hk2
      cases hc2 : (check_task_status client cycle task_id).completed with
      | none => simp only [poll_tasks, hc2] at hok; cases hok
      | some c =>
        cases c with
        | true =>
          cases he2 : (check_task_status client cycle task_id).error with
          | none =>
            simp only [poll_tasks, hc2, he2, List.mem_cons]
            exact Or.inr (Or.inr hrest)
          | some err =>
            simp only [poll_tasks, hc2, he2, List.mem_cons]
            exact Or.inr (Or.inr hrest)
        | false =>
          simp only [poll_tasks, hc2, List.mem_cons]
          exact Or.inr (Or.inr hrest)

theorem poll_tasks_case_done (client : Client) (cycle : Nat)
    (l kept : List (String × String)) (i t : String)
    (hmem : (i, t) ∈ l)
    (hc : (check_task_status client cycle t).completed = some true)
    (he : (check_task_status client cycle t).error = none)
    (hok : (poll_tasks client cycle l).2 = Except.ok kept) :
    Event.jobCompleted i ∈ (poll_tasks client cycle l).1 := by
  induction l generalizing kept with
  | nil => cases hmem
  | cons p rest ih =>
    rcases List.mem_cons.1 hmem with heq | hmem2
    · cases heq
      simp [poll_tasks, hc, he]
    · obtain ⟨index, task_id⟩ := p
      obtain ⟨kept2, hk2⟩ := poll_tasks_rest_ok client cycle _ rest kept hok
      have hrest := ih kept2 hmem2 hk2
      cases hc2 : (check_task_status client cycle task_id).completed with
      | none => simp only [poll_tasks, hc2] at hok; cases hok
      | some c =>
        cases c with
        | true =>
          cases he2 : (check_task_status client cycle task_id).error with
          | none =>
            simp only [poll_tasks, hc2, he2, List.mem_cons]
            exact Or.inr (Or.inr hrest)
          | some err =>
            simp only [poll_tasks, hc2, he2, List.mem_cons]
            exact Or.inr (Or.inr hrest)
        | false =>
          simp only [poll_tasks, hc2, List.mem_cons]
          exact Or.inr (Or.inr hrest)

theorem poll_tasks_case_progress (client : Client) (cycle : Nat)
    (l kept : List (String × String)) (i t : String)
    (hmem : (i, t) ∈ l)
    (hc : (check_task_status client cycle t).completed = some false)
    (hok : (poll_tasks client cycle l).2 = Except.ok kept) :
    (i, t) ∈ kept ∧ Event.jobInProgress i ∈ (poll_tasks client cycle l).1 ∧
      Event.statusQuery i t ∈ (poll_tasks client cycle l).1 := by
  induction l generalizing kept with
  | nil => cases hmem
  | cons p rest ih =>
    rcases List.mem_cons.1 hmem with heq | hmem2
    · cases heq
      simp only [poll_tasks, hc] at hok ⊢
      cases hk : (poll_tasks client cycle rest).2 with
      | ok kept2 =>
        rw [hk] at hok
        cases hok
        simp
      | error e => rw [hk] at hok; cases hok
    · obtain ⟨index, task_id⟩ := p
      obtain ⟨kept2, hk2⟩ := poll_tasks_rest_ok client cycle _ rest kept hok
      cases hc2 : (check_task_status client cycle task_id).completed with
      | none => simp only [poll_tasks, hc2] at hok; cases hok
      | some c =>
        cases c with
        | true =>
          simp only [poll_tasks, hc2] at hok
          have heq : kept2 = kept := by rw [hok] at hk2; injection hk2 with h; exact h.symm
          subst heq
          obtain ⟨h1, h2, h3⟩ := ih kept2 hmem2 hk2
          cases he2 : (check_task_status client cycle task_id).error with
          | none =>
            simp only [poll_tasks, hc2, he2, List.mem_cons]
            exact ⟨h1, Or.inr (Or.inr h2), Or.inr (Or.inr h3)⟩
          | some err =>
            simp only [poll_tasks, hc2, he2, List.mem_cons]
            exact ⟨h1, Or.inr (Or.inr h2), Or.inr (Or.inr h3)⟩
        | false =>
          simp only [poll_tasks, hc2] at hok
          rw [hk2] at hok
          cases hok
          obtain ⟨h1, h2, h3⟩ := ih kept2 hmem2 hk2
          simp only [poll_tasks, hc2, List.mem_cons]
          exact ⟨Or.inr h1, Or.inr (Or.inr h2), Or.inr (Or.inr h3)⟩

theorem poll_tasks_no_progress_event (client : Client) (cycle : Nat)
    (l : List (String × String)) (i t : String)
    (hmem : (i, t) ∈ l)
    (hnd : (l.map Prod.fst).Nodup)
    (hc : (check_task_status client cycle t).completed = some true) :
    Event.jobInProgress i ∉ (poll_tasks client cycle l).1 := by
  induction l with
  | nil => cases hmem
  | cons p rest ih =>
    obtain ⟨index, task_id⟩ := p
    simp only [List.map_cons, List.nodup_cons] at hnd
    rcases List.mem_cons.1 hmem with heq | hmem2
    · cases heq
      intro hcon
      have hnot : Event.jobInProgress i ∉ (poll_tasks client cycle rest).1 := by
        intro h2
        exact hnd.1 (poll_tasks_evIdx client cycle rest _ i h2 rfl)
      cases he : (check_task_status client cycle t).error with
      | none => simp [poll_tasks, hc, he, hnot] at hcon
      | some err => simp [poll_tasks, hc, he, hnot] at hcon
    · have hne : i ≠ index := by
        intro heq2
        subst heq2
        exact hnd.1 (List.mem_map_of_mem Prod.fst hmem2)
      have hrest := ih hmem2 hnd.2
      intro hcon
      cases hc2 : (check_task_status client cycle task_id).completed with
      | none =>
        simp only [poll_tasks, hc2, List.mem_singleton] at hcon
        cases hcon
      | some c =>
        cases c with
        | true =>
          cases he2 : (check_task_status client cycle task_id).error with
          | none => simp [poll_tasks, hc2, he2, hrest] at hcon
          | some err => simp [poll_tasks, hc2, he2, hrest] at hcon
        | false =>
          simp only [poll_tasks, hc2, List.mem_cons] at hcon
          rcases hcon with h | h | h
          · cases h
          · exact hne (by injection h)
          · exact hrest h

/-! ### Helper lemmas: the poll loop -/

theorem termIdx_pollEvIdx (ev : Event) (i : String) (h : termIdx ev = some i) :
    pollEvIdx ev = some i := by
  cases ev <;> simp_all [termIdx, pollEvIdx]

theorem poll_loop_evIdx (client : Client) (fuel : Nat) :
    ∀ (cd : Nat) (l : List (String × String)) (ev : Event) (i : String),
      ev ∈ (poll_loop client fuel cd l).1 → pollEvIdx ev = some i →
      i ∈ l.map Prod.fst := by
  induction fuel with
  | zero =>
    intro cd l ev i hmem hidx
    cases l with
    | nil => simp [poll_loop] at hmem
    | cons p rest => simp [poll_loop] at hmem
  | succ fuel ih =>
    intro cd l ev i hmem hidx
    cases l with
    | nil => simp [poll_loop] at hmem
    | cons p rest =>
      simp only [poll_loop] at hmem
      cases hk : (poll_tasks client (cd + 1) (p :: rest)).2 with
      | error e =>
        rw [hk] at hmem
        exact poll_tasks_evIdx client (cd + 1) (p :: rest) ev i hmem hidx
      | ok kept =>
        rw [hk] at hmem
        simp only [List.mem_append] at hmem
        rcases hmem with h | h
        · exact poll_tasks_evIdx client (cd + 1) (p :: rest) ev i h hidx
        · have h2 := ih (cd + 1) kept ev i h hidx
          exact ((poll_tasks_sublist client (cd + 1) (p :: rest) kept hk).map
            Prod.fst).subset h2

theorem poll_loop_no_fatal (client : Client) (hwf : StatusWellFormed client)
    (fuel : Nat) :
    ∀ (cd : Nat) (l : List (String × String)) (e : String),
      (poll_loop client fuel cd l).2 ≠ RunOutcome.fatalError e := by
  induction fuel with
  | zero =>
    intro cd l e
    cases l with
    | nil => simp [poll_loop]
    | cons p rest => simp [poll_loop]
  | succ fuel ih =>
    intro cd l e
    cases l with
    | nil => simp [poll_loop]
    | cons p rest =>
      obtain ⟨kept, hk⟩ := poll_tasks_no_raise client (cd + 1) (p :: rest)
        (fun q _ => check_task_status_wf client hwf (cd + 1) q.2)
      simp only [poll_loop, hk]
      exact ih (cd + 1) kept e

theorem poll_loop_term_sub (client : Client) (fuel : Nat)
    (cd : Nat) (l : List (String × String)) (i : String)
    (h : i ∈ termIndices (poll_loop client fuel cd l).1) : i ∈ l.map Prod.fst := by
  obtain ⟨ev, hmem, hidx⟩ := List.mem_filterMap.1 h
  exact poll_loop_evIdx client fuel cd l ev i hmem (termIdx_pollEvIdx ev i hidx)

theorem poll_loop_term_nodup (client : Client) (fuel : Nat) :
    ∀ (cd : Nat) (l : List (String × String)),
      (l.map Prod.fst).Nodup →
      (termIndices (poll_loop client fuel cd l).1).Nodup := by
  induction fuel with
  | zero =>
    intro cd l hnd
    cases l with
    | nil => simp [poll_loop, termIndices]
    | cons p rest => simp [poll_loop, termIndices]
  | succ fuel ih =>
    intro cd l hnd
    cases l with
    | nil => simp [poll_loop, termIndices]
    | cons p rest =>
      simp only [poll_loop]
      cases hk : (poll_tasks client (cd + 1) (p :: rest)).2 with
      | error e =>
        exact (poll_tasks_term_sublist client (cd + 1) (p :: rest)).nodup hnd
      | ok kept =>
        have hkeysub := (poll_tasks_sublist client (cd + 1) (p :: rest) kept hk).map Prod.fst
        simp only [termIndices, List.filterMap_append]
        refine List.Nodup.append
          ((poll_tasks_term_sublist client (cd + 1) (p :: rest)).nodup hnd)
          (ih (cd + 1) kept (hkeysub.nodup hnd)) ?_
        intro i h1 h2
        exact poll_tasks_term_not_kept client (cd + 1) (p :: rest) kept i hnd hk h1
          (poll_loop_term_sub client fuel (cd + 1) kept i h2)

theorem poll_loop_first_queries (client : Client) (fuel cd : Nat)
    (l : List (String × String))
    (hwf : ∀ p ∈ l, (check_task_status client (cd + 1) p.2).completed ≠ none) :
    ∀ p ∈ l, Event.statusQuery p.1 p.2 ∈ (poll_loop client (fuel + 1) cd l).1 := by
  intro p hp
  cases l with
  | nil => cases hp
  | cons q rest =>
    have hq := poll_tasks_all_queried client (cd + 1) (q :: rest) hwf p hp
    obtain ⟨kept, hk⟩ := poll_tasks_no_raise client (cd + 1) (q :: rest) hwf
    simp only [poll_loop, hk, List.mem_append]
    exact Or.inl hq

/-! ### Helper lemmas: the whole run -/

theorem migrate_indices_eq (env : Env) (fuel : Nat) (config : Config) (client : Client)
    (hcfg : env.load_config = Except.ok config)
    (hcli : env.initialize_opensearch_client config = Except.ok client) :
    migrate_indices env fuel =
      { outcome := (poll_loop client fuel 0
          (submit_phase client config config.source_indices []).1).2
      , trace := (submit_phase client config config.source_indices []).2 ++
          (poll_loop client fuel 0
            (submit_phase client config config.source_indices []).1).1 ++
          (match (poll_loop client fuel 0
              (submit_phase client config config.source_indices []).1).2 with
           | RunOutcome.finished _ => [Event.summary]
           | _ => []) } := by
  simp [migrate_indices, hcfg, hcli]

theorem migrate_trace_pollEvIdx (env : Env) (fuel : Nat) (config : Config)
    (client : Client) (ev : Event) (i : String)
    (hcfg : env.load_config = Except.ok config)
    (hcli : env.initialize_opensearch_client config = Except.ok client)
    (hmem : ev ∈ (migrate_indices env fuel).trace)
    (hidx : pollEvIdx ev = some i) :
    i ∈ (submit_phase client config config.source_indices []).1.map Prod.fst := by
  rw [migrate_indices_eq env fuel config client hcfg hcli] at hmem
  simp only [List.append_assoc, List.mem_append] at hmem
  rcases hmem with h | h | h
  · rw [submit_events_pollEvIdx client config config.source_indices [] ev h] at hidx
    cases hidx
  · exact poll_loop_evIdx client fuel 0 _ ev i h hidx
  · cases hoc : (poll_loop client fuel 0
      (submit_phase client config config.source_indices []).1).2 with
    | finished n =>
      rw [hoc] at h
      simp only [List.mem_singleton] at h
      subst h
      cases hidx
    | fatalError e => rw [hoc] at h; cases h
    | outOfFuel => rw [hoc] at h; cases h

/-! ### Helper lemmas: the completion-time schedule -/

theorem check_task_status_schedule (client : Client) (T : String → Nat)
    (hsched : client.tasks_get = scheduleStatus T) (cycle : Nat) (t : String) :
    check_task_status client cycle t =
      { completed := some (decide (T t ≤ 10 * cycle)), error := none } := by
  simp [check_task_status, hsched, scheduleStatus]

theorem firstCycle_le_iff (t c : Nat) (hc : 1 ≤ c) :
    firstCycle t ≤ c ↔ t ≤ 10 * c := by
  unfold firstCycle
  omega

theorem poll_tasks_schedule (client : Client) (T : String → Nat)
    (hsched : client.tasks_get = scheduleStatus T) (cycle : Nat) (hcy : 1 ≤ cycle)
    (l : List (String × String)) :
    (poll_tasks client cycle l).2 =
      Except.ok (l.filter (fun p => decide (cycle < firstCycle (T p.2)))) := by
  induction l with
  | nil => simp [poll_tasks]
  | cons p rest ih =>
    obtain ⟨i, t⟩ := p
    by_cases hd : T t ≤ 10 * cycle
    · have h1 : (check_task_status client cycle t).completed = some true := by
        rw [check_task_status_schedule client T hsched]
        simp [hd]
      have h2 : (cycle < firstCycle (T t)) = False := by
        simp only [eq_iff_iff, iff_false, not_lt]
        exact (firstCycle_le_iff (T t) cycle hcy).2 hd
      simp [poll_tasks, h1, List.filter_cons, h2, ih]
    · have h1 : (check_task_status client cycle t).completed = some false := by
        rw [check_task_status_schedule client T hsched]
        simp [hd]
      have h2 : (cycle < firstCycle (T t)) = True := by
        simp only [eq_iff_iff, iff_true]
        by_contra hcon
        exact hd ((firstCycle_le_iff (T t) cycle hcy).1 (by omega))
      simp [poll_tasks, h1, List.filter_cons, h2, ih]

theorem maxCycle_mem_le (T : String → Nat) (l : List (String × String))
    (p : String × String) (hp : p ∈ l) : firstCycle (T p.2) ≤ maxCycle T l := by
  induction l with
  | nil => cases hp
  | cons q rest ih =>
    rcases List.mem_cons.1 hp with rfl | hp2
    · simp only [maxCycle, List.foldr_cons]
      exact le_max_left _ _
    · simp only [maxCycle, List.foldr_cons]
      exact le_trans (ih hp2) (le_max_right _ _)

theorem maxCycle_exists (T : String → Nat) (l : List (String × String))
    (hne : l ≠ []) : ∃ p ∈ l, maxCycle T l = firstCycle (T p.2) := by
  induction l with
  | nil => exact absurd rfl hne
  | cons q rest ih =>
    cases rest with
    | nil =>
      refine ⟨q, List.mem_cons_self _ _, ?_⟩
      simp [maxCycle, firstCycle]
    | cons q2 rest2 =>
      obtain ⟨p, hp, hmax⟩ := ih (by simp)
      rcases le_or_lt (firstCycle (T q.2)) (maxCycle T (q2 :: rest2)) with h | h
      · refine ⟨p, List.mem_cons_of_mem _ hp, ?_⟩
        simp only [maxCycle, List.foldr_cons] at hmax h ⊢
        omega
      · refine ⟨q, List.mem_cons_self _ _, ?_⟩
        simp only [maxCycle, List.foldr_cons] at hmax h ⊢
        omega

theorem poll_loop_schedule (client : Client) (T : String → Nat)
    (hsched : client.tasks_get = scheduleStatus T) (fuel : Nat) :
    ∀ (cd : Nat) (l : List (String × String)), l ≠ [] →
      (∀ p ∈ l, cd < firstCycle (T p.2)) →
      maxCycle T l ≤ fuel + cd →
      (poll_loop client fuel cd l).2 = RunOutcome.finished (maxCycle T l) := by
  induction fuel with
  | zero =>
    intro cd l hne hlt hle
    exfalso
    obtain ⟨p, hp, hmax⟩ := maxCycle_exists T l hne
    have := hlt p hp
    omega
  | succ fuel ih =>
    intro cd l hne hlt hle
    obtain ⟨p0, rest0, rfl⟩ := List.exists_cons_of_ne_nil hne
    simp only [poll_loop,
      poll_tasks_schedule client T hsched (cd + 1) (by omega) (p0 :: rest0)]
    by_cases hk : (p0 :: rest0).filter
        (fun p => decide (cd + 1 < firstCycle (T p.2))) = []
    · have hall : ∀ p ∈ p0 :: rest0, firstCycle (T p.2) ≤ cd + 1 := by
        intro p hp
        have := List.filter_eq_nil_iff.1 hk p hp
        simp only [decide_eq_true_eq] at this
        omega
      obtain ⟨p, hp, hmax⟩ := maxCycle_exists T (p0 :: rest0) (by simp)
      have h1 := hall p hp
      have h2 := hlt p hp
      rw [hk]
      simp only [poll_loop]
      congr 1
      omega
    · have hkeep : ∀ p ∈ (p0 :: rest0).filter
          (fun p => decide (cd + 1 < firstCycle (T p.2))), cd + 1 < firstCycle (T p.2) := by
        intro p hp
        have := List.of_mem_filter hp
        simpa using this
      have hmeq : maxCycle T ((p0 :: rest0).filter
          (fun p => decide (cd + 1 < firstCycle (T p.2)))) = maxCycle T (p0 :: rest0) := by
        obtain ⟨q, hq, hmaxq⟩ := maxCycle_exists T _ hk
        obtain ⟨p1, hp1, hmaxp1⟩ := maxCycle_exists T (p0 :: rest0) (by simp)
        have hq_le : firstCycle (T q.2) ≤ maxCycle T (p0 :: rest0) :=
          maxCycle_mem_le T _ q (List.mem_of_mem_filter hq)
        have hq_gt := hkeep q hq
        rcases le_or_lt (firstCycle (T p1.2)) (cd + 1) with h | h
        · omega
        · have hp1k : p1 ∈ (p0 :: rest0).filter
              (fun p => decide (cd + 1 < firstCycle (T p.2))) :=
            List.mem_filter.2 ⟨hp1, by simpa using h⟩
          have := maxCycle_mem_le T _ p1 hp1k
          omega
      rw [ih (cd + 1) _ hk hkeep (by omega), hmeq]

/-! ### Helper lemmas: event shapes -/

theorem poll_tasks_ev_some (client : Client) (cycle : Nat)
    (l : List (String × String)) (ev : Event)
    (hmem : ev ∈ (poll_tasks client cycle l).1) : ∃ i, pollEvIdx ev = some i := by
  induction l with
  | nil => simp [poll_tasks] at hmem
  | cons p rest ih =>
    obtain ⟨index, task_id⟩ := p
    cases hc : (check_task_status client cycle task_id).completed with
    | none =>
      simp only [poll_tasks, hc, List.mem_singleton] at hmem
      subst hmem
      exact ⟨index, rfl⟩
    | some c =>
      cases c with
      | true =>
        cases he : (check_task_status client cycle task_id).error with
        | none =>
          simp only [poll_tasks, hc, he, List.mem_cons] at hmem
          rcases hmem with rfl | rfl | h
          · exact ⟨index, rfl⟩
          · exact ⟨index, rfl⟩
          · exact ih h
        | some err =>
          simp only [poll_tasks, hc, he, List.mem_cons] at hmem
          rcases hmem with rfl | rfl | h
          · exact ⟨index, rfl⟩
          · exact ⟨index, rfl⟩
          · exact ih h
      | false =>
        simp only [poll_tasks, hc, List.mem_cons] at hmem
        rcases hmem with rfl | rfl | h
        · exact ⟨index, rfl⟩
        · exact ⟨index, rfl⟩
        · exact ih h

theorem poll_loop_ev_some (client : Client) (fuel : Nat) :
    ∀ (cd : Nat) (l : List (String × String)) (ev : Event),
      ev ∈ (poll_loop client fuel cd l).1 → ∃ i, pollEvIdx ev = some i := by
  induction fuel with
  | zero =>
    intro cd l ev hmem
    cases l with
    | nil => simp [poll_loop] at hmem
    | cons p rest => simp [poll_loop] at hmem
  | succ fuel ih =>
    intro cd l ev hmem
    cases l with
    | nil => simp [poll_loop] at hmem
    | cons p rest =>
      simp only [poll_loop] at hmem
      cases hk : (poll_tasks client (cd + 1) (p :: rest)).2 with
      | error e =>
        rw [hk] at hmem
        exact poll_tasks_ev_some client (cd + 1) (p :: rest) ev hmem
      | ok kept =>
        rw [hk] at hmem
        simp only [List.mem_append] at hmem
        rcases hmem with h | h
        · exact poll_tasks_ev_some client (cd + 1) (p :: rest) ev h
        · exact ih (cd + 1) kept ev h

theorem submit_no_summary (client : Client) (config : Config)
    (idxs : List String) (acc : List (String × String)) :
    Event.summary ∉ (submit_phase client config idxs acc).2 := by
  intro h
  induction idxs generalizing acc with
  | nil => simp [submit_phase] at h
  | cons j rest ih =>
    cases hs : start_reindex_task client j config.target_index config.es_source_remote with
    | none =>
      simp only [submit_phase, hs, List.mem_cons] at h
      rcases h with h | h | h
      · cases h
      · cases h
      · exact ih _ h
    | some tid =>
      simp only [submit_phase, hs, List.mem_cons] at h
      rcases h with h | h | h
      · cases h
      · cases h
      · exact ih _ h

theorem submit_submitOk_mem (client : Client) (config : Config)
    (idxs : List String) (acc : List (String × String)) (i tid : String)
    (hmem : i ∈ idxs)
    (hs : start_reindex_task client i config.target_index config.es_source_remote
      = some tid) :
    Event.submitOk i tid ∈ (submit_phase client config idxs acc).2 := by
  induction idxs generalizing acc with
  | nil => cases hmem
  | cons j rest ih =>
    rcases List.mem_cons.1 hmem with rfl | hmem2
    · simp [submit_phase, hs]
    · cases hs2 : start_reindex_task client j config.target_index config.es_source_remote with
      | none =>
        simp only [submit_phase, hs2, List.mem_cons]
        exact Or.inr (Or.inr (ih acc hmem2))
      | some tid2 =>
        simp only [submit_phase, hs2, List.mem_cons]
        exact Or.inr (Or.inr (ih _ hmem2))

/-! ### Concrete fixtures used to instantiate the theorems -/

/-- A concrete remote-source credential set. -/
def wRemote : RemoteSource := { host := "h", username := "u", password := "p" }

/-- The configuration of the two-collection scenario from the design spec. -/
def wConfig : Config :=
  { source_indices := ["logs-2023", "logs-2024"]
  , target_index := "logs-archive"
  , es_source_remote := wRemote }

/-- A client for the two-collection scenario: both submissions succeed, the
first cycle reports both in progress, the second reports one success and one
remote failure. -/
def wClient : Client :=
  { reindex := fun req =>
      if req.body.source_index = "logs-2023" then Except.ok { task := "task-1" }
      else Except.ok { task := "task-2" }
  , tasks_get := fun cycle tid =>
      if cycle = 1 then Except.ok { completed := some false, error := none }
      else if tid = "task-1" then Except.ok { completed := some true, error := none }
      else Except.ok { completed := some true, error := some "mapping conflict" } }

/-- Environment wiring the two-collection scenario together. -/
def wEnv : Env :=
  { load_config := Except.ok wConfig
  , initialize_opensearch_client := fun _ => Except.ok wClient }

/-- A client whose submission for index `a` raises and whose statuses always
report completion. -/
def w2Client : Client :=
  { reindex := fun req =>
      if req.body.source_index = "a" then Except.error "transport down"
      else Except.ok { task := "t-b" }
  , tasks_get := fun _ _ => Except.ok { completed := some true, error := none } }

/-- A two-collection configuration over indices `a` and `b`. -/
def w2Config : Config :=
  { source_indices := ["a", "b"], target_index := "d", es_source_remote := wRemote }

/-- Environment for the failing-submission scenario. -/
def w2Env : Env :=
  { load_config := Except.ok w2Config
  , initialize_opensearch_client := fun _ => Except.ok w2Client }

/-- A client whose status query for task `t1` raises and is in progress for
every other task. -/
def w3Client : Client :=
  { reindex := fun _ => Except.ok { task := "x" }
  , tasks_get := fun _ tid =>
      if tid = "t1" then Except.error "connection refused"
      else Except.ok { completed := some false, error := none } }

/-- A client driven by a completion-time schedule: every task completes at
time 15, hence is first observed completed at poll cycle 2. -/
def w4Client : Client :=
  { reindex := fun _ => Except.ok { task := "t" }
  , tasks_get := scheduleStatus (fun _ => 15) }

/-- A one-collection configuration over index `a`. -/
def w4Config : Config :=
  { source_indices := ["a"], target_index := "d", es_source_remote := wRemote }

/-- Environment for the schedule-driven scenario. -/
def w4Env : Env :=
  { load_config := Except.ok w4Config
  , initialize_opensearch_client := fun _ => Except.ok w4Client }

/-- A client that always submits successfully with the same task id and
always reports completion; used with a duplicated source list. -/
def c6Client : Client :=
  { reindex := fun _ => Except.ok { task := "t1" }
  , tasks_get := fun _ _ => Except.ok { completed := some true, error := none } }

/-- A configuration listing the same source collection twice. -/
def c6Config : Config :=
  { source_indices := ["a", "a"], target_index := "d", es_source_remote := wRemote }

/-- An environment whose configuration loading fails. -/
def c7Env : Env :=
  { load_config := Except.error "missing file"
  , initialize_opensearch_client := fun _ => Except.error "unused" }

/-- A client for the malformed-status scenario: both submissions succeed,
cycle 1 reports both jobs in progress, and at cycle 2 the second job's
status response lacks the `completed` key while the first is still in
progress. -/
def c9Client : Client :=
  { reindex := fun req =>
      if req.body.source_index = "a" then Except.ok { task := "t1" }
      else Except.ok { task := "t2" }
  , tasks_get := fun cycle tid =>
      if cycle = 1 then Except.ok { completed := some false, error := none }
      else if tid = "t1" then Except.ok { completed := some false, error := none }
      else Except.ok { completed := none, error := none } }

/-- Environment for the malformed-status scenario, over indices `a` and `b`. -/
def c9Env : Env :=
  { load_config := Except.ok w2Config
  , initialize_opensearch_client := fun _ => Except.ok c9Client }

/-- The poll-loop states reachable from a starting active dict: `Reaches
client cd l cd2 l2` holds when the loop, with active dict `l` after `cd`
completed cycles, arrives (through zero or more passes that neither raise
nor empty the dict) at active dict `l2` after `cd2` cycles. -/
inductive Reaches (client : Client) :
    Nat → List (String × String) → Nat → List (String × String) → Prop where
  | refl (cd : Nat) (l : List (String × String)) : Reaches client cd l cd l
  | step (cd : Nat) (l kept : List (String × String)) (cd2 : Nat)
      (l2 : List (String × String)) :
      l ≠ [] → (poll_tasks client (cd + 1) l).2 = Except.ok kept →
      Reaches client (cd + 1) kept cd2 l2 → Reaches client cd l cd2 l2

/-- A client whose submission for index `b` succeeds but returns an empty
(falsy) task id. -/
def c10Client : Client :=
  { reindex := fun req =>
      if req.body.source_index = "b" then Except.ok { task := "" }
      else Except.ok { task := "t-a" }
  , tasks_get := fun _ _ => Except.ok { completed := some true, error := none } }

/-- Environment for the falsy-task-id scenario, over indices `a` and `b`. -/
def c10Env : Env :=
  { load_config := Except.ok w2Config
  , initialize_opensearch_client := fun _ => Except.ok c10Client }

theorem poll_tasks_raises (client : Client) (cycle : Nat)
    (l : List (String × String)) (i t : String)
    (hmem : (i, t) ∈ l)
    (hc : (check_task_status client cycle t).completed = none) :
    ∃ e, (poll_tasks client cycle l).2 = Except.error e := by
  induction l with
  | nil => cases hmem
  | cons p rest ih =>
    obtain ⟨index, task_id⟩ := p
    rcases List.mem_cons.1 hmem with heq | hmem2
    · cases heq
      exact ⟨i, by simp [poll_tasks, hc]⟩
    · cases hc2 : (check_task_status client cycle task_id).completed with
      | none => exact ⟨index, by simp [poll_tasks, hc2]⟩
      | some c =>
        obtain ⟨e, he⟩ := ih hmem2
        cases c with
        | true => exact ⟨e, by simp only [poll_tasks, hc2]; exact he⟩
        | false => exact ⟨e, by simp only [poll_tasks, hc2, he]⟩

theorem reaches_le (client : Client) (cd : Nat) (l : List (String × String))
    (cd2 : Nat) (l2 : List (String × String))
    (h : Reaches client cd l cd2 l2) : cd ≤ cd2 := by
  induction h with
  | refl cd3 l3 => exact le_refl _
  | step cd3 l3 kept cd4 l4 hne hok hr ih => omega

theorem reaches_error_fatal (client : Client) (cd : Nat)
    (l : List (String × String)) (cd2 : Nat) (l2 : List (String × String))
    (hreach : Reaches client cd l cd2 l2) :
    ∀ e fuel, (poll_tasks client (cd2 + 1) l2).2 = Except.error e →
      cd2 + 1 ≤ cd + fuel →
      (poll_loop client fuel cd l).2 = RunOutcome.fatalError e := by
  induction hreach with
  | refl cd3 l3 =>
    intro e fuel herr hfuel
    cases l3 with
    | nil => simp [poll_tasks] at herr
    | cons p rest =>
      obtain ⟨f, rfl⟩ : ∃ f, fuel = f + 1 := ⟨fuel - 1, by omega⟩
      simp only [poll_loop, herr]
  | step cd3 l3 kept cd4 l4 hne hok hr ih =>
    intro e fuel herr hfuel
    have hle := reaches_le client (cd3 + 1) kept cd4 l4 hr
    obtain ⟨f, rfl⟩ : ∃ f, fuel = f + 1 := ⟨fuel - 1, by omega⟩
    cases l3 with
    | nil => exact absurd rfl hne
    | cons p rest =>
      simp only [poll_loop, hok]
      exact ih e f herr (by omega)

/-! ### Claim theorems -/

/-- C1: in one poll pass, every polled job is handled by case analysis on the
returned status: completed with an error field present is logged as failed
and removed from the active set; completed without an error field is logged
as successful and removed from the active set; in-progress is kept in the
active set (still Submitted), a progress line is logged, and the job is
queried again in the next poll cycle. -/
theorem c1_poll_step_case_analysis (client : Client) (cycle : Nat)
    (l kept : List (String × String)) (evs : List Event) (i t : String)
    (hmem : (i, t) ∈ l)
    (hnd : (l.map Prod.fst).Nodup)
    (hres : poll_tasks client cycle l = (evs, Except.ok kept)) :
    ((check_task_status client cycle t).completed = some true →
      ∀ e, (check_task_status client cycle t).error = some e →
        Event.jobFailed i e ∈ evs ∧ i ∉ kept.map Prod.fst) ∧
    ((check_task_status client cycle t).completed = some true →
      (check_task_status client cycle t).error = none →
        Event.jobCompleted i ∈ evs ∧ i ∉ kept.map Prod.fst) ∧
    ((check_task_status client cycle t).completed = some false →
      (i, t) ∈ kept ∧ Event.jobInProgress i ∈ evs ∧
      ((∀ p ∈ kept, (check_task_status client (cycle + 1) p.2).completed ≠ none) →
        Event.statusQuery i t ∈ (poll_tasks client (cycle + 1) kept).1)) := by
  have hevs : (poll_tasks client cycle l).1 = evs := by rw [hres]
  have hok : (poll_tasks client cycle l).2 = Except.ok kept := by rw [hres]
  refine ⟨?_, ?_, ?_⟩
  · intro hc e he
    have h1 := poll_tasks_case_fail client cycle l kept i t e hmem hc he hok
    have h2 : i ∈ termIndices (poll_tasks client cycle l).1 :=
      List.mem_filterMap.2 ⟨Event.jobFailed i e, h1, rfl⟩
    exact ⟨hevs ▸ h1, poll_tasks_term_not_kept client cycle l kept i hnd hok h2⟩
  · intro hc he
    have h1 := poll_tasks_case_done client cycle l kept i t hmem hc he hok
    have h2 : i ∈ termIndices (poll_tasks client cycle l).1 :=
      List.mem_filterMap.2 ⟨Event.jobCompleted i, h1, rfl⟩
    exact ⟨hevs ▸ h1, poll_tasks_term_not_kept client cycle l kept i hnd hok h2⟩
  · intro hc
    obtain ⟨h1, h2, h3⟩ := poll_tasks_case_progress client cycle l kept i t hmem hc hok
    exact ⟨h1, hevs ▸ h2, fun hwf =>
      poll_tasks_all_queried client (cycle + 1) kept hwf (i, t) h1⟩

/-- Witness for C1 on the two-collection scenario, second poll cycle: the
job whose completed status carries an error is logged failed and dropped. -/
theorem c1_poll_step_case_analysis_witness :
    Event.jobFailed "logs-2024" "mapping conflict" ∈
      [Event.statusQuery "logs-2023" "task-1", Event.jobCompleted "logs-2023",
       Event.statusQuery "logs-2024" "task-2",
       Event.jobFailed "logs-2024" "mapping conflict"] ∧
    "logs-2024" ∉ ([] : List (String × String)).map Prod.fst :=
  (c1_poll_step_case_analysis wClient 2
    [("logs-2023", "task-1"), ("logs-2024", "task-2")] []
    [Event.statusQuery "logs-2023" "task-1", Event.jobCompleted "logs-2023",
     Event.statusQuery "logs-2024" "task-2",
     Event.jobFailed "logs-2024" "mapping conflict"]
    "logs-2024" "task-2" (by decide) (by decide) rfl).1 rfl "mapping conflict" rfl

/-- C2: when the submit call for one configured source collection raises,
the failure is logged, the job is excluded from the active set, no status
query is ever issued for it, every other collection is still submitted, and
(for a well-formed client) the run neither aborts nor skips polling the
remaining active jobs in the first cycle. -/
theorem c2_submission_failure_isolated (env : Env) (fuel : Nat) (config : Config)
    (client : Client) (i e : String)
    (hcfg : env.load_config = Except.ok config)
    (hcli : env.initialize_opensearch_client config = Except.ok client)
    (hi : i ∈ config.source_indices)
    (hfail : client.reindex (reindexRequestFor i config.target_index config.es_source_remote)
      = Except.error e) :
    Event.submitFail i ∈ (migrate_indices env fuel).trace ∧
    i ∉ (submit_phase client config config.source_indices []).1.map Prod.fst ∧
    (∀ t, Event.statusQuery i t ∉ (migrate_indices env fuel).trace) ∧
    (∀ j ∈ config.source_indices,
      Event.submitCall (reindexRequestFor j config.target_index config.es_source_remote)
        ∈ (migrate_indices env fuel).trace) ∧
    (StatusWellFormed client →
      (∀ e2, (migrate_indices env fuel).outcome ≠ RunOutcome.fatalError e2) ∧
      (∀ f2, fuel = f2 + 1 →
        ∀ p ∈ (submit_phase client config config.source_indices []).1,
          Event.statusQuery p.1 p.2 ∈ (migrate_indices env fuel).trace)) := by
  have hstart : start_reindex_task client i config.target_index config.es_source_remote
      = none := by
    simp [start_reindex_task, hfail]
  have heq := migrate_indices_eq env fuel config client hcfg hcli
  have hnot : i ∉ (submit_phase client config config.source_indices []).1.map Prod.fst :=
    submit_keys_not_mem client config config.source_indices [] i
      (fun tid h => by rw [hstart] at h; cases h) (by simp)
  refine ⟨?_, hnot, ?_, ?_, ?_⟩
  · rw [heq]
    simp only [RunResult.trace, List.append_assoc, List.mem_append]
    exact Or.inl (submit_submitFail_mem client config config.source_indices [] i hi hstart)
  · intro t hmem
    exact hnot (migrate_trace_pollEvIdx env fuel config client
      (Event.statusQuery i t) i hcfg hcli hmem rfl)
  · intro j hj
    rw [heq]
    simp only [RunResult.trace, List.append_assoc, List.mem_append]
    exact Or.inl (submit_submitCall_mem client config config.source_indices [] j hj)
  · intro hwf
    constructor
    · intro e2
      rw [heq]
      simp only [RunResult.outcome]
      exact poll_loop_no_fatal client hwf fuel 0 _ e2
    · intro f2 hf p hp
      subst hf
      rw [heq]
      simp only [RunResult.trace, List.append_assoc, List.mem_append]
      exact Or.inr (Or.inl (poll_loop_first_queries client f2 0 _
        (fun q _ => check_task_status_wf client hwf 1 q.2) p hp))

/-- Witness for C2: index `a` fails to submit while `b` succeeds; the
failure is logged and `a` is excluded from the active set. -/
theorem c2_submission_failure_isolated_witness :
    Event.submitFail "a" ∈ (migrate_indices w2Env 1).trace ∧
    "a" ∉ (submit_phase w2Client w2Config w2Config.source_indices []).1.map Prod.fst :=
  ⟨(c2_submission_failure_isolated w2Env 1 w2Config w2Client "a" "transport down"
      rfl rfl (by decide) rfl).1,
   (c2_submission_failure_isolated w2Env 1 w2Config w2Client "a" "transport down"
      rfl rfl (by decide) rfl).2.1⟩

/-- C3: when a job's status query itself raises, the job is treated as
terminally failed carrying the query error: the check returns a completed
status with the error string, the pass does not abort, the job is logged
failed and removed from the active set in the same cycle, it is never logged
as still in progress, and every job of the cycle (query failure included) is
still queried. -/
theorem c3_poll_failure_terminal (client : Client) (cycle : Nat)
    (l : List (String × String)) (i t e : String)
    (hmem : (i, t) ∈ l)
    (hnd : (l.map Prod.fst).Nodup)
    (herr : client.tasks_get cycle t = Except.error e)
    (hwf : ∀ p ∈ l, (check_task_status client cycle p.2).completed ≠ none) :
    check_task_status client cycle t = { completed := some true, error := some e } ∧
    ∃ kept, (poll_tasks client cycle l).2 = Except.ok kept ∧
      Event.jobFailed i e ∈ (poll_tasks client cycle l).1 ∧
      i ∉ kept.map Prod.fst ∧
      Event.jobInProgress i ∉ (poll_tasks client cycle l).1 ∧
      (∀ p ∈ l, Event.statusQuery p.1 p.2 ∈ (poll_tasks client cycle l).1) := by
  have hcheck := check_task_status_of_error client cycle t e herr
  have hc : (check_task_status client cycle t).completed = some true := by
    rw [hcheck]
  have he : (check_task_status client cycle t).error = some e := by
    rw [hcheck]
  obtain ⟨kept, hk⟩ := poll_tasks_no_raise client cycle l hwf
  have h1 := poll_tasks_case_fail client cycle l kept i t e hmem hc he hk
  have h2 : i ∈ termIndices (poll_tasks client cycle l).1 :=
    List.mem_filterMap.2 ⟨Event.jobFailed i e, h1, rfl⟩
  exact ⟨hcheck, kept, hk, h1,
    poll_tasks_term_not_kept client cycle l kept i hnd hk h2,
    poll_tasks_no_progress_event client cycle l i t hmem hnd hc,
    poll_tasks_all_queried client cycle l hwf⟩

/-- Witness for C3: task `t1`'s status query raises while `t2` is in
progress; the pass treats `t1` as failed with the query error. -/
theorem c3_poll_failure_terminal_witness :
    check_task_status w3Client 1 "t1" =
      { completed := some true, error := some "connection refused" } ∧
    ∃ kept, (poll_tasks w3Client 1 [("a", "t1"), ("b", "t2")]).2 = Except.ok kept ∧
      Event.jobFailed "a" "connection refused"
        ∈ (poll_tasks w3Client 1 [("a", "t1"), ("b", "t2")]).1 ∧
      "a" ∉ kept.map Prod.fst ∧
      Event.jobInProgress "a" ∉ (poll_tasks w3Client 1 [("a", "t1"), ("b", "t2")]).1 ∧
      (∀ p ∈ [("a", "t1"), ("b", "t2")],
        Event.statusQuery p.1 p.2 ∈ (poll_tasks w3Client 1 [("a", "t1"), ("b", "t2")]).1) :=
  c3_poll_failure_terminal w3Client 1 [("a", "t1"), ("b", "t2")] "a" "t1"
    "connection refused" (by decide) (by decide) rfl (by decide)

/-- C4: with statuses driven by per-task completion times (no poll errors,
every job eventually completed), the poll loop terminates after exactly the
cycle in which the slowest job is first observed completed; that count
equals ceil(T / 10) for T the slowest observed completion time (a multiple
of the 10-unit interval), and on termination the elapsed-time summary is
logged and the run returns normally. -/
theorem c4_poll_loop_cycle_count (env : Env) (fuel : Nat) (config : Config)
    (client : Client) (T : String → Nat)
    (hcfg : env.load_config = Except.ok config)
    (hcli : env.initialize_opensearch_client config = Except.ok client)
    (hsched : client.tasks_get = scheduleStatus T)
    (hne : (submit_phase client config config.source_indices []).1 ≠ [])
    (hfuel : maxCycle T (submit_phase client config config.source_indices []).1 ≤ fuel) :
    (migrate_indices env fuel).outcome = RunOutcome.finished
      (maxCycle T (submit_phase client config config.source_indices []).1) ∧
    Event.summary ∈ (migrate_indices env fuel).trace ∧
    maxCycle T (submit_phase client config config.source_indices []).1 =
      (10 * maxCycle T (submit_phase client config config.source_indices []).1 + 9) / 10 := by
  have heq := migrate_indices_eq env fuel config client hcfg hcli
  have hloop := poll_loop_schedule client T hsched fuel 0
    (submit_phase client config config.source_indices []).1 hne
    (fun p _ => by unfold firstCycle; omega)
    (by omega)
  refine ⟨by rw [heq]; exact hloop, ?_, by omega⟩
  rw [heq]
  simp only [RunResult.trace, hloop, List.append_assoc, List.mem_append]
  exact Or.inr (Or.inr (List.mem_singleton.2 rfl))

/-- Witness for C4: one job completing at time 15 is first observed complete
at cycle 2, and the run finishes in exactly 2 cycles with the summary line. -/
theorem c4_poll_loop_cycle_count_witness :
    (migrate_indices w4Env 2).outcome = RunOutcome.finished 2 ∧
    Event.summary ∈ (migrate_indices w4Env 2).trace := by
  have h := c4_poll_loop_cycle_count w4Env 2 w4Config w4Client (fun _ => 15)
    rfl rfl rfl (by decide) (by decide)
  exact ⟨h.1.trans (by decide), h.2.1⟩

/-- C5: state-machine invariants of a run. The active set records at most one
job id per source collection and each collection is added at most once (its
key list has no duplicates); every active key comes from the configured
source collections (jobs are created only at submission time); every
poll-phase event (query, progress, terminal) concerns a job of the active
set built at submission, so no job skips Submitted; and no job receives two
terminal events, so no job reverses state or re-enters the active set after
removal. -/
theorem c5_state_machine_invariants (env : Env) (fuel : Nat) (config : Config)
    (client : Client)
    (hcfg : env.load_config = Except.ok config)
    (hcli : env.initialize_opensearch_client config = Except.ok client) :
    ((submit_phase client config config.source_indices []).1.map Prod.fst).Nodup ∧
    (∀ i ∈ (submit_phase client config config.source_indices []).1.map Prod.fst,
      i ∈ config.source_indices) ∧
    (∀ ev ∈ (migrate_indices env fuel).trace, ∀ i, pollEvIdx ev = some i →
      i ∈ (submit_phase client config config.source_indices []).1.map Prod.fst) ∧
    (termIndices (migrate_indices env fuel).trace).Nodup := by
  have heq := migrate_indices_eq env fuel config client hcfg hcli
  have hnodup := submit_keys_nodup client config config.source_indices [] (by simp)
  refine ⟨hnodup, ?_, ?_, ?_⟩
  · intro i hi
    rcases submit_keys_sub client config config.source_indices [] i hi with h | h
    · simp at h
    · exact h
  · intro ev hev i hidx
    exact migrate_trace_pollEvIdx env fuel config client ev i hcfg hcli hev hidx
  · rw [heq]
    simp only [RunResult.trace, termIndices, List.filterMap_append]
    have hsub : (submit_phase client config config.source_indices []).2.filterMap
        termIdx = [] := by
      rw [List.filterMap_eq_nil_iff]
      intro ev hev
      cases ht : termIdx ev with
      | none => rfl
      | some i =>
        have h2 := termIdx_pollEvIdx ev i ht
        rw [submit_events_pollEvIdx client config config.source_indices [] ev hev] at h2
        cases h2
    have htail : (match (poll_loop client fuel 0
        (submit_phase client config config.source_indices []).1).2 with
        | RunOutcome.finished _ => [Event.summary]
        | _ => []).filterMap termIdx = [] := by
      cases (poll_loop client fuel 0
        (submit_phase client config config.source_indices []).1).2 <;> simp [termIdx]
    rw [hsub, htail]
    simp only [List.nil_append, List.append_nil]
    exact poll_loop_term_nodup client fuel 0 _ hnodup

/-- Witness for C5 on the two-collection scenario: active keys are distinct
and each job gets exactly one terminal event across the whole run. -/
theorem c5_state_machine_invariants_witness :
    ((submit_phase wClient wConfig wConfig.source_indices []).1.map Prod.fst).Nodup ∧
    (termIndices (migrate_indices wEnv 5).trace).Nodup :=
  ⟨(c5_state_machine_invariants wEnv 5 wConfig wClient rfl rfl).1,
   (c5_state_machine_invariants wEnv 5 wConfig wClient rfl rfl).2.2.2⟩

/-- C6 counterexample: a configuration listing the same source collection
twice (N = 2) on which every submit call succeeds with a truthy job id, yet
the active job set at the start of the poll phase has size 1, not N: the
`task_ids` dict keeps one entry per collection name. -/
theorem c6_counterexample_duplicate_sources :
    c6Config.source_indices.length = 2 ∧
    (∀ i ∈ c6Config.source_indices,
      start_reindex_task c6Client i c6Config.target_index c6Config.es_source_remote
        = some "t1") ∧
    (submit_phase c6Client c6Config c6Config.source_indices []).1.length = 1 := by
  decide

/-- C6 amended: for every configuration listing N pairwise-distinct source
collections, if every submit call succeeds with a truthy (non-empty) job id,
the active job set at the start of the poll phase has size exactly N. -/
theorem c6_active_set_size (client : Client) (config : Config)
    (hnd : config.source_indices.Nodup)
    (hok : ∀ i ∈ config.source_indices,
      start_reindex_task client i config.target_index config.es_source_remote ≠ none ∧
      start_reindex_task client i config.target_index config.es_source_remote ≠ some "") :
    (submit_phase client config config.source_indices []).1.length =
      config.source_indices.length := by
  have h := submit_length client config config.source_indices [] hnd
    (fun i hi => ?_) (by simp)
  · simpa using h
  · obtain ⟨h1, h2⟩ := hok i hi
    cases hs : start_reindex_task client i config.target_index config.es_source_remote with
    | none => exact absurd hs h1
    | some tid =>
      refine ⟨tid, fun hc => ?_, rfl⟩
      subst hc
      exact h2 hs

/-- Witness for C6 amended: two distinct collections, both submissions
succeed, active set has size 2. -/
theorem c6_active_set_size_witness :
    (submit_phase c6Client w2Config w2Config.source_indices []).1.length =
      w2Config.source_indices.length :=
  c6_active_set_size c6Client w2Config (by decide) (by decide)

/-- C7: a configuration-loading or client-construction failure aborts the
run before any submission (fatal outcome, empty trace: no submit call, no
status query, no summary); and when both succeed, a well-formed client's
per-job errors never surface as a run-level fatal outcome. -/
theorem c7_fatal_only_config_and_init (env : Env) (fuel : Nat) :
    (∀ e, env.load_config = Except.error e →
      migrate_indices env fuel = { outcome := RunOutcome.fatalError e, trace := [] }) ∧
    (∀ config e, env.load_config = Except.ok config →
      env.initialize_opensearch_client config = Except.error e →
      migrate_indices env fuel = { outcome := RunOutcome.fatalError e, trace := [] }) ∧
    (∀ config client, env.load_config = Except.ok config →
      env.initialize_opensearch_client config = Except.ok client →
      StatusWellFormed client →
      ∀ e, (migrate_indices env fuel).outcome ≠ RunOutcome.fatalError e) := by
  refine ⟨?_, ?_, ?_⟩
  · intro e he
    simp [migrate_indices, he]
  · intro config e hc he
    simp [migrate_indices, hc, he]
  · intro config client hc hcl hwf e
    rw [migrate_indices_eq env fuel config client hc hcl]
    simp only [RunResult.outcome]
    exact poll_loop_no_fatal client hwf fuel 0 _ e

/-- Witness for C7: an environment whose configuration load raises aborts
with that error and an empty trace. -/
theorem c7_fatal_only_config_and_init_witness :
    migrate_indices c7Env 3 =
      { outcome := RunOutcome.fatalError "missing file", trace := [] } :=
  (c7_fatal_only_config_and_init c7Env 3).1 "missing file" rfl

/-- C8: every submit call the orchestrator issues carries the shared remote
credentials, the job's own source collection, the single shared destination
collection, an unlimited rate request (`requests_per_second = "-1"`) and
asynchronous execution (`wait_for_completion = false`); and a successful
call's job id is taken from the response's `task` field. -/
theorem c8_submit_request_shape (env : Env) (fuel : Nat) (config : Config)
    (client : Client)
    (hcfg : env.load_config = Except.ok config)
    (hcli : env.initialize_opensearch_client config = Except.ok client) :
    (∀ req, Event.submitCall req ∈ (migrate_indices env fuel).trace →
      req.body.remote = config.es_source_remote ∧
      req.body.dest_index = config.target_index ∧
      req.body.source_index ∈ config.source_indices ∧
      req.wait_for_completion = false ∧
      req.requests_per_second = "-1") ∧
    (∀ s t r resp, client.reindex (reindexRequestFor s t r) = Except.ok resp →
      start_reindex_task client s t r = some resp.task) := by
  constructor
  · intro req hmem
    rw [migrate_indices_eq env fuel config client hcfg hcli] at hmem
    simp only [RunResult.trace, List.append_assoc, List.mem_append] at hmem
    rcases hmem with h | h | h
    · obtain ⟨i, hi, rfl⟩ := submit_call_events client config config.source_indices [] req h
      refine ⟨?_, rfl, hi, rfl, rfl⟩
      cases hr : config.es_source_remote
      simp [reindexRequestFor, hr]
    · obtain ⟨j, hj⟩ := poll_loop_ev_some client fuel 0 _ _ h
      cases hj
    · cases hoc : (poll_loop client fuel 0
        (submit_phase client config config.source_indices []).1).2 with
      | finished n =>
        rw [hoc] at h
        simp only [List.mem_singleton] at h
        cases h
      | fatalError e => rw [hoc] at h; cases h
      | outOfFuel => rw [hoc] at h; cases h
  · intro s t r resp hok
    simp [start_reindex_task, hok]

/-- Witness for C8: the submit call for `logs-2023` in the two-collection
scenario has the shared credentials, destination, unlimited rate and async
flag. -/
theorem c8_submit_request_shape_witness :
    (reindexRequestFor "logs-2023" "logs-archive" wRemote).body.remote
      = wConfig.es_source_remote ∧
    (reindexRequestFor "logs-2023" "logs-archive" wRemote).body.dest_index
      = wConfig.target_index ∧
    (reindexRequestFor "logs-2023" "logs-archive" wRemote).body.source_index
      ∈ wConfig.source_indices ∧
    (reindexRequestFor "logs-2023" "logs-archive" wRemote).wait_for_completion = false ∧
    (reindexRequestFor "logs-2023" "logs-archive" wRemote).requests_per_second = "-1" :=
  (c8_submit_request_shape wEnv 5 wConfig wClient rfl rfl).1
    (reindexRequestFor "logs-2023" "logs-archive" wRemote) (by decide)

/-- C9: under the client contract that every successful status response has
a `completed` key, the orchestrator's direct indexing of
`status['completed']` never raises (no poll pass ever errors); without that
contract, a status response lacking the key — for any job of any active
dict the loop reaches, at any cycle — raises out of the per-job poll
handling mid-pass, is caught only by the run-level handler, and aborts the
entire run without the total-elapsed-time summary line. -/
theorem c9_completed_key_contract (env : Env) (config : Config)
    (client2 client : Client) (fuel cd2 : Nat)
    (l2 : List (String × String)) (i t : String) (st : TaskStatus) :
    (StatusWellFormed client2 → ∀ cycle (l : List (String × String)) e,
      (poll_tasks client2 cycle l).2 ≠ Except.error e) ∧
    (env.load_config = Except.ok config →
      env.initialize_opensearch_client config = Except.ok client →
      Reaches client 0 (submit_phase client config config.source_indices []).1 cd2 l2 →
      (i, t) ∈ l2 →
      client.tasks_get (cd2 + 1) t = Except.ok st →
      st.completed = none →
      cd2 + 1 ≤ fuel →
      (∃ e, (poll_tasks client (cd2 + 1) l2).2 = Except.error e) ∧
      (∃ e, (migrate_indices env fuel).outcome = RunOutcome.fatalError e) ∧
      Event.summary ∉ (migrate_indices env fuel).trace) := by
  constructor
  · intro hwf cycle l e hcon
    obtain ⟨kept, hk⟩ := poll_tasks_no_raise client2 cycle l
      (fun p _ => check_task_status_wf client2 hwf cycle p.2)
    rw [hk] at hcon
    cases hcon
  · intro hcfg hcli hreach hmem hst hc hfuel
    have hcc : (check_task_status client (cd2 + 1) t).completed = none := by
      simp only [check_task_status, hst]
      exact hc
    obtain ⟨e, he⟩ := poll_tasks_raises client (cd2 + 1) l2 i t hmem hcc
    have hout := reaches_error_fatal client 0
      (submit_phase client config config.source_indices []).1 cd2 l2 hreach
      e fuel he (by omega)
    have heq := migrate_indices_eq env fuel config client hcfg hcli
    refine ⟨⟨e, he⟩, ⟨e, by rw [heq]; exact hout⟩, ?_⟩
    intro hcon
    rw [heq] at hcon
    simp only [RunResult.trace, hout, List.append_assoc, List.mem_append] at hcon
    rcases hcon with h | h | h
    · exact submit_no_summary client config config.source_indices [] h
    · obtain ⟨j, hj⟩ := poll_loop_ev_some client fuel 0 _ _ h
      cases hj
    · cases h

/-- Witness for C9: a well-formed client's poll pass never errors; for the
malformed-status client, the loop runs a clean first cycle, then at cycle 2
the second job of the active dict returns a status without a `completed`
key, the pass raises mid-pass and the run aborts with no summary line. -/
theorem c9_completed_key_contract_witness :
    (poll_tasks c6Client 1 [("a", "t1")]).2 ≠ Except.error "e" ∧
    ((∃ e, (poll_tasks c9Client 2 [("a", "t1"), ("b", "t2")]).2 = Except.error e) ∧
     (∃ e, (migrate_indices c9Env 2).outcome = RunOutcome.fatalError e) ∧
     Event.summary ∉ (migrate_indices c9Env 2).trace) := by
  have hreach : Reaches c9Client 0
      (submit_phase c9Client w2Config w2Config.source_indices []).1 1
      [("a", "t1"), ("b", "t2")] := by
    have h0 : (submit_phase c9Client w2Config w2Config.source_indices []).1
        = [("a", "t1"), ("b", "t2")] := by decide
    rw [h0]
    exact Reaches.step 0 _ _ 1 _ (by decide) rfl (Reaches.refl 1 _)
  exact ⟨(c9_completed_key_contract c9Env w2Config c6Client c9Client 2 1
      [("a", "t1"), ("b", "t2")] "b" "t2" { completed := none, error := none }).1
      (fun cycle task_id st h => by injection h with h2; rw [← h2]; simp)
      1 [("a", "t1")] "e",
    (c9_completed_key_contract c9Env w2Config c6Client c9Client 2 1
      [("a", "t1"), ("b", "t2")] "b" "t2" { completed := none, error := none }).2
      rfl rfl hreach (by decide) rfl rfl (by omega)⟩

/-- C10: a submit call that succeeds but returns a falsy (empty) job id is
treated exactly like a failed submission: the success is still logged with
the empty id, but membership in the active set follows the job id's
truthiness, so the job is excluded, never queried, and never receives a
terminal (completed/failed) log event. -/
theorem c10_falsy_job_id_excluded (env : Env) (fuel : Nat) (config : Config)
    (client : Client) (i : String)
    (hcfg : env.load_config = Except.ok config)
    (hcli : env.initialize_opensearch_client config = Except.ok client)
    (hi : i ∈ config.source_indices)
    (hempty : client.reindex (reindexRequestFor i config.target_index config.es_source_remote)
      = Except.ok { task := "" }) :
    Event.submitOk i "" ∈ (migrate_indices env fuel).trace ∧
    i ∉ (submit_phase client config config.source_indices []).1.map Prod.fst ∧
    (∀ t, Event.statusQuery i t ∉ (migrate_indices env fuel).trace) ∧
    (∀ e, Event.jobFailed i e ∉ (migrate_indices env fuel).trace) ∧
    Event.jobCompleted i ∉ (migrate_indices env fuel).trace := by
  have hstart : start_reindex_task client i config.target_index config.es_source_remote
      = some "" := by
    simp [start_reindex_task, hempty]
  have heq := migrate_indices_eq env fuel config client hcfg hcli
  have hnot : i ∉ (submit_phase client config config.source_indices []).1.map Prod.fst :=
    submit_keys_not_mem client config config.source_indices [] i
      (fun tid h => by rw [hstart] at h; injection h with h2; exact h2.symm) (by simp)
  refine ⟨?_, hnot, ?_, ?_, ?_⟩
  · rw [heq]
    simp only [RunResult.trace, List.append_assoc, List.mem_append]
    exact Or.inl (submit_submitOk_mem client config config.source_indices [] i "" hi hstart)
  · intro t hmem
    exact hnot (migrate_trace_pollEvIdx env fuel config client
      (Event.statusQuery i t) i hcfg hcli hmem rfl)
  · intro e hmem
    exact hnot (migrate_trace_pollEvIdx env fuel config client
      (Event.jobFailed i e) i hcfg hcli hmem rfl)
  · intro hmem
    exact hnot (migrate_trace_pollEvIdx env fuel config client
      (Event.jobCompleted i) i hcfg hcli hmem rfl)

/-- Witness for C10: index `b` submits successfully with an empty task id,
is excluded from the active set and never reported terminal. -/
theorem c10_falsy_job_id_excluded_witness :
    "b" ∉ (submit_phase c10Client w2Config w2Config.source_indices []).1.map Prod.fst ∧
    Event.jobCompleted "b" ∉ (migrate_indices c10Env 2).trace :=
  ⟨(c10_falsy_job_id_excluded c10Env 2 w2Config c10Client "b" rfl rfl
      (by decide) rfl).2.1,
   (c10_falsy_job_id_excluded c10Env 2 w2Config c10Client "b" rfl rfl
      (by decide) rfl).2.2.2.2⟩

end MigrateIndices
